import Mathlib

/-!
# Verification of the VCD waveform-parsing pipeline

Shallow embedding of `scripts/analyze_vcd_metrics.py`: the two-pass
lightweight VCD parser (`parse_vcd_lightweight`), the two's-complement
reinterpretation (`twos_complement`), the length reconciliation and the
state segmentation of `parse_vcd_by_state`.

Lines of the trace file are modelled as `List Char` (one entry per line,
line terminator stripped).  Python dictionaries are modelled as
association lists with first-match lookup; Python dict assignment updates
the first matching key in place, or appends a fresh binding.
-/

/-- Python `str.strip()`: drop leading and trailing whitespace. -/
def pyStrip (l : List Char) : List Char :=
  ((l.dropWhile Char.isWhitespace).reverse.dropWhile Char.isWhitespace).reverse

/-- Accumulator-based worker for `pySplitWs`; `acc` is the current token, reversed. -/
def splitAux : List Char → List Char → List (List Char)
  | [], acc => if acc.isEmpty then [] else [acc.reverse]
  | c :: cs, acc =>
    if c.isWhitespace then
      (if acc.isEmpty then splitAux cs [] else acc.reverse :: splitAux cs [])
    else splitAux cs (c :: acc)

/-- Python `str.split()` with no argument: split on whitespace runs, dropping
empty tokens. -/
def pySplitWs (l : List Char) : List (List Char) := splitAux l []

/-- Numeric value of a decimal digit character. -/
def digitVal (c : Char) : Nat := c.toNat - Char.toNat '0'

/-- Parse a nonempty all-decimal-digit string as a natural number. -/
def parseDigits (l : List Char) : Option Nat :=
  if l ≠ [] ∧ ∀ c ∈ l, c.isDigit then
    some (l.foldl (fun a c => a * 10 + digitVal c) 0)
  else none

/-- Python `int(s)` on a token: optional surrounding whitespace, optional
sign, then decimal digits.  (Underscore digit grouping is not modelled;
it does not occur in the traces in scope.) -/
def parseIntPy (l : List Char) : Option Int :=
  match pyStrip l with
  | '-' :: ds => (parseDigits ds).map (fun n => -(n : Int))
  | '+' :: ds => (parseDigits ds).map (fun n => (n : Int))
  | ds => (parseDigits ds).map (fun n => (n : Int))

/-- Parse a nonempty all-binary-digit string as a natural number. -/
def parseBits (l : List Char) : Option Nat :=
  if l ≠ [] ∧ ∀ c ∈ l, c = '0' ∨ c = '1' then
    some (l.foldl (fun a c => a * 2 + (if c = '1' then 1 else 0)) 0)
  else none

/-- Python `int(s, 2)` on a whitespace-free token: optional sign, then
binary digits.  (Underscore grouping and a redundant `0b` prefix, which
Python also accepts, are not modelled; they do not occur in VCD literals.) -/
def parseBinPy (l : List Char) : Option Int :=
  match l with
  | '-' :: ds => (parseBits ds).map (fun n => -(n : Int))
  | '+' :: ds => (parseBits ds).map (fun n => (n : Int))
  | ds => (parseBits ds).map (fun n => (n : Int))

/-- Python `sub in s` substring test. -/
def containsSub (l pat : List Char) : Bool :=
  (List.range (l.length + 1)).any (fun i => pat.isPrefixOf (l.drop i))

/-- First-match lookup in an association list (Python `d[k]` / `k in d`). -/
def lookupA {α : Type} (k : List Char) (m : List (List Char × α)) : Option α :=
  match m with
  | [] => none
  | (k', v) :: rest => if k' = k then some v else lookupA k rest

/-- Python dict assignment `d[k] = v`: replace the first binding of `k`,
or append a fresh binding when `k` is absent. -/
def insertA {α : Type} (k : List Char) (v : α) (m : List (List Char × α)) :
    List (List Char × α) :=
  match m with
  | [] => [(k, v)]
  | (k', v') :: rest => if k' = k then (k, v) :: rest else (k', v') :: insertA k v rest

/-- Python `d[k].append(v)` for a dict of lists: append to the first binding
of `k`; a no-op when `k` is absent (absence is unreachable in the pipeline,
where every tracked name is pre-bound to `[]`). -/
def appendA {α : Type} (k : List Char) (v : α) (m : List (List Char × List α)) :
    List (List Char × List α) :=
  match m with
  | [] => []
  | (k', xs) :: rest =>
    if k' = k then (k', xs ++ [v]) :: rest else (k', xs) :: appendA k v rest

/-- Remove duplicates, keeping first occurrences (Python dict-comprehension
key set over a possibly repeating source list). -/
def dedupAux {α : Type} [DecidableEq α] : List α → List α → List α
  | _, [] => []
  | seen, x :: xs =>
    if x ∈ seen then dedupAux seen xs else x :: dedupAux (x :: seen) xs

/-- Duplicate-free version of a list, first occurrences kept. -/
def dedupL {α : Type} [DecidableEq α] (l : List α) : List α := dedupAux [] l

/-- Character list of a string literal. -/
def sChars (s : String) : List Char := s.data

/-! ## The source model: `twos_complement` and the fixed unsigned set -/

/-- `twos_complement(val, bits, signed)` from the script: reinterpret the
integer parsed from a binary literal as a signed two's-complement value of
`bits` bits, unless `signed` is false.  (Python computes `2**(bits-1)`;
for integer `val` the comparison agrees with `2^(bits-1)` in natural
subtraction, including at `bits = 0` where Python's `0.5` threshold and
our `1` accept exactly the same integers.) -/
def twos_complement (val : Int) (bits : Nat) (signed : Bool) : Int :=
  if !signed then val
  else if 2 ^ (bits - 1) ≤ val then val - 2 ^ bits
  else val

/-- `UNSIGNED_SIGNALS`: names decoded without two's-complement
reinterpretation. -/
def UNSIGNED_SIGNALS : List (List Char) :=
  [sChars "state_select", sChars "phase_pattern",
   sChars "oscillator_derived_pattern", sChars "ca3_learning",
   sChars "ca3_recalling", sChars "ca3_debug"]

/-! ## First pass: the header resolver -/

/-- The core of the `$var` branch of the header scan, acting on the
whitespace-split tokens of the line: accept kinds wire/reg/integer, parse
the width, take the base name of `parts[4]` (up to the first `[`, after a
defensive inner whitespace split), and record `(id ↦ name, id ↦ width)`
when the base name is wanted.  (Python parses the width with `int`; a
sign on the width, which never occurs, is not modelled.) -/
def acceptVar (wanted : List (List Char))
    (acc : List (List Char × List Char) × List (List Char × Nat))
    (parts : List (List Char)) :
    List (List Char × List Char) × List (List Char × Nat) :=
  match parts with
  | _ :: ty :: wS :: vid :: vname :: _ =>
    if ty = sChars "wire" ∨ ty = sChars "reg" ∨ ty = sChars "integer" then
      match parseDigits wS with
      | some w =>
        match pySplitWs vname with
        | pn :: _ =>
          let base := pn.takeWhile (fun c => c ≠ '[')
          if wanted.contains base then
            (insertA vid base acc.1, insertA vid w acc.2)
          else acc
        | [] => acc
      | none => acc
    else acc
  | _ => acc

/-- One raw line of the header scan: only lines starting with `$var` are
considered. -/
def processHeaderLine (wanted : List (List Char))
    (acc : List (List Char × List Char) × List (List Char × Nat))
    (line : List Char) :
    List (List Char × List Char) × List (List Char × Nat) :=
  if (sChars "$var").isPrefixOf line then acceptVar wanted acc (pySplitWs line)
  else acc

/-- Header scan: process lines in order, stopping at the first line
containing `$enddefinitions`. -/
def headerGo (wanted : List (List Char))
    (acc : List (List Char × List Char) × List (List Char × Nat)) :
    List (List Char) → List (List Char × List Char) × List (List Char × Nat)
  | [] => acc
  | l :: ls =>
    if containsSub l (sChars "$enddefinitions") then acc
    else headerGo wanted (processHeaderLine wanted acc l) ls

/-- First pass of `parse_vcd_lightweight`: `(signal_ids, signal_widths)`. -/
def headerPass (wanted : List (List Char)) (lines : List (List Char)) :
    List (List Char × List Char) × List (List Char × Nat) :=
  headerGo wanted ([], []) lines

/-! ## Second pass: the event decoder -/

/-- Mutable state of the decoding loop: `last_values`, `signal_data`,
`sample_count`, `current_time`. -/
structure DecState where
  lastValues : List (List Char × Int)
  signalData : List (List Char × List Int)
  sampleCount : Nat
  currentTime : Int
deriving DecidableEq, Repr

/-- Outcome of processing one body line: continue, break out of the loop,
or raise an uncaught exception. -/
inductive StepResult where
  | next (st : DecState)
  | brk (st : DecState)
  | exc
deriving DecidableEq, Repr

/-- The sampling snapshot: for each tracked identifier in table order,
append its last-known value (when one exists) to its signal's series. -/
def snapshot (ids : List (List Char × List Char)) (lv : List (List Char × Int))
    (sd : List (List Char × List Int)) : List (List Char × List Int) :=
  ids.foldl (fun acc p =>
    match lookupA p.1 lv with
    | some v => appendA p.2 v acc
    | none => acc) sd

/-- `signal_data = {sig: [] for sig in signals_of_interest if sig in
signal_ids.values()}`. -/
def initData (wanted : List (List Char)) (ids : List (List Char × List Char)) :
    List (List Char × List Int) :=
  (dedupL wanted).filterMap (fun s =>
    if ids.any (fun p => p.2 = s) then some (s, ([] : List Int)) else none)

/-- The multi-bit (`b`-prefixed) branch of the decoding loop, acting on
the whitespace-split tokens of the line: exactly two tokens, a tracked
identifier, and a parseable binary literal are required; otherwise the
event is skipped (the source's `len(parts) == 2` guard, `in signal_ids`
check and try/except `pass`). -/
def bBranch (ids : List (List Char × List Char)) (widths : List (List Char × Nat))
    (st : DecState) : List (List Char) → StepResult
  | [p0, p1] =>
    match lookupA p1 ids with
    | some sigName =>
      match parseBinPy (p0.drop 1) with
      | some v =>
        let sval := twos_complement v ((lookupA p1 widths).getD 18)
          (!(UNSIGNED_SIGNALS.contains sigName))
        .next { st with lastValues := insertA p1 sval st.lastValues }
      | none => .next st
    | none => .next st
  | _ => .next st

/-- The branching core of one decoding-loop iteration, on the stripped
line: timestamp marker (`#`), multi-bit change (`b`), or single-bit change.
Mirrors the source: the marker's `int` is unguarded (an unparsable marker
raises), the binary literal's `int` is guarded by try/except `pass`, and
for single-bit changes only `'0'`/`'1'` write the table. -/
def stepCore (ids : List (List Char × List Char)) (widths : List (List Char × Nat))
    (maxS : Nat) (st : DecState) : List Char → StepResult
  | [] => .next st
  | c :: rest =>
    if c = '#' then
      match parseIntPy rest with
      | none => .exc
      | some t =>
        let sc := st.sampleCount + 1
        let sd := if sc % 10 = 0 then snapshot ids st.lastValues st.signalData
                  else st.signalData
        let st' : DecState := ⟨st.lastValues, sd, sc, t⟩
        if maxS * 10 ≤ sc then .brk st' else .next st'
    else if c = 'b' then
      bBranch ids widths st (pySplitWs (c :: rest))
    else if (c = '0' ∨ c = '1' ∨ c = 'x' ∨ c = 'X' ∨ c = 'z' ∨ c = 'Z') ∧ rest ≠ [] then
      if (lookupA rest ids).isSome then
        if c = '1' then .next { st with lastValues := insertA rest 1 st.lastValues }
        else if c = '0' then .next { st with lastValues := insertA rest 0 st.lastValues }
        else .next st
      else .next st
    else .next st

/-- One iteration of the decoding loop: strip the raw line, then branch. -/
def step (ids : List (List Char × List Char)) (widths : List (List Char × Nat))
    (maxS : Nat) (st : DecState) (rawLine : List Char) : StepResult :=
  stepCore ids widths maxS st (pyStrip rawLine)

/-- The decoding loop over the body lines, with the source's early `break`
and uncaught-exception behaviour (`none` = the parse raised). -/
def runBody (ids : List (List Char × List Char)) (widths : List (List Char × Nat))
    (maxS : Nat) : DecState → List (List Char) → Option DecState
  | st, [] => some st
  | st, l :: ls =>
    match step ids widths maxS st l with
    | .next st' => runBody ids widths maxS st' ls
    | .brk st' => some st'
    | .exc => none

/-- Final filtering: keep only signals that received at least one sample. -/
def resultOf (sd : List (List Char × List Int)) : List (List Char × List Int) :=
  sd.filter (fun p => !p.2.isEmpty)

/-- `parse_vcd_lightweight(vcd_file, signals_of_interest, max_samples)`:
header pass, then a second scan of all lines from the start of the file,
then the nonempty-series filter.  `none` means the parse raised. -/
def parse_vcd_lightweight (wanted : List (List Char)) (maxSamples : Nat)
    (lines : List (List Char)) : Option (List (List Char × List Int)) :=
  let hp := headerPass wanted lines
  match runBody hp.1 hp.2 maxSamples ⟨[], initData wanted hp.1, 0, 0⟩ lines with
  | some st => some (resultOf st.signalData)
  | none => none

/-! ## Length reconciliation and state segmentation -/

/-- `min(len(arr) for arr in data.values())` for nonempty `data`. -/
def minLenOf (data : List (List Char × List Int)) : Nat :=
  match data.map (fun p => p.2.length) with
  | [] => 0
  | x :: xs => xs.foldl min x

/-- Index selection of `np.linspace(0, n-1, L, dtype=int)`: `L` evenly
spaced positions across `[0, n-1]`, each truncated to an integer index.
Modelled with exact integer arithmetic (`⌊k·(n-1)/(L-1)⌋`); the float64
rounding inside numpy is not modelled. -/
def linspaceIdx (n L : Nat) : List Nat :=
  if L = 0 then []
  else if L = 1 then [0]
  else (List.range L).map (fun k => k * (n - 1) / (L - 1))

/-- Downsample a series to length `L` by evenly spaced index selection,
leaving series of length at most `L` unchanged (the source's
`if len(data[sig_name]) > min_len` guard). -/
def resample (xs : List Int) (L : Nat) : List Int :=
  if L < xs.length then (linspaceIdx xs.length L).map (fun i => xs.getD i 0)
  else xs

/-- The length-reconciliation step of `parse_vcd_by_state`: bring every
series to the minimum observed length. -/
def reconcile (data : List (List Char × List Int)) : List (List Char × List Int) :=
  data.map (fun p => (p.1, resample p.2 (minLenOf data)))

/-- The five state labels, in testbench order. -/
def stateNames : List (List Char) :=
  [sChars "NORMAL", sChars "ANESTHESIA", sChars "PSYCHEDELIC",
   sChars "FLOW", sChars "MEDITATION"]

/-- `state_select == state_idx` as a boolean row mask. -/
def maskOf (key : List Int) (v : Int) : List Bool := key.map (fun x => x = v)

/-- Numpy boolean-mask selection `values[mask]`. -/
def applyMask (xs : List Int) (mask : List Bool) : List Int :=
  (xs.zip mask).filterMap (fun p => if p.2 then some p.1 else none)

/-- The per-label segment body built by `parse_vcd_by_state`: every signal
except the partition key, masked to the label's rows. -/
def segFor (data : List (List Char × List Int)) (mask : List Bool) :
    List (List Char × List Int) :=
  data.filterMap (fun p =>
    if p.1 = sChars "state_select" then none else some (p.1, applyMask p.2 mask))

/-- The segmentation loop of `parse_vcd_by_state`: one segment per label
index whose mask selects at least one row. -/
def segmentByState (data : List (List Char × List Int)) (key : List Int) :
    List (List Char × List (List Char × List Int)) :=
  stateNames.enum.filterMap (fun p =>
    let mask := maskOf key (p.1 : Int)
    if mask.any (fun b => b) then some (p.2, segFor data mask) else none)

/-- The post-extraction part of `parse_vcd_by_state`: fall back to a single
`NORMAL` segment when `state_select` was not tracked; otherwise reconcile
lengths and segment by the `state_select` series. -/
def splitByState (data : List (List Char × List Int)) :
    List (List Char × List (List Char × List Int)) :=
  match lookupA (sChars "state_select") data with
  | none => [(sChars "NORMAL", data)]
  | some _ =>
    let data' := reconcile data
    segmentByState data' ((lookupA (sChars "state_select") data').getD [])

/-- `parse_vcd_by_state(vcd_file, signals)`: extract `signals + ['state_select']`
with a 50000-sample budget, then split by state. -/
def parse_vcd_by_state (wanted : List (List Char)) (lines : List (List Char)) :
    Option (List (List Char × List (List Char × List Int))) :=
  match parse_vcd_lightweight (wanted ++ [sChars "state_select"]) 50000 lines with
  | some data => some (splitByState data)
  | none => none

/-! ## Derived notions used in the statements -/

/-- A body line that the decoder treats as a timestamp marker. -/
def isMarkerL (raw : List Char) : Bool :=
  match pyStrip raw with
  | '#' :: _ => true
  | _ => false

/-- Length of the series recorded so far for `name` (0 when absent). -/
def lenAt (name : List Char) (sd : List (List Char × List Int)) : Nat :=
  ((lookupA name sd).getD []).length

/-- A `$var` declaration of the header, in structured form. -/
structure VarDecl where
  kind : List Char
  widthS : List Char
  vid : List Char
  vname : List Char
deriving DecidableEq, Repr

/-- The whitespace-split tokens of a well-formed declaration line. -/
def declParts (d : VarDecl) : List (List Char) :=
  [sChars "$var", d.kind, d.widthS, d.vid, d.vname, sChars "$end"]

/-- The declaration rendered as one header line. -/
def renderDecl (d : VarDecl) : List Char :=
  sChars "$var" ++ (' ' :: (d.kind ++ (' ' :: (d.widthS ++ (' ' :: (d.vid ++
    (' ' :: (d.vname ++ (' ' :: sChars "$end")))))))))

/-- A usable token: nonempty, no whitespace. -/
def tokenOk (t : List Char) : Prop :=
  t ≠ [] ∧ ∀ c ∈ t, c.isWhitespace = false

/-- Well-formedness of a declaration for the rendering bridge. -/
def wfDecl (d : VarDecl) : Prop :=
  tokenOk d.kind ∧ tokenOk d.widthS ∧ tokenOk d.vid ∧ tokenOk d.vname ∧
    containsSub (renderDecl d) (sChars "$enddefinitions") = false

instance (t : List Char) : Decidable (tokenOk t) :=
  inferInstanceAs (Decidable (t ≠ [] ∧ ∀ c ∈ t, c.isWhitespace = false))

instance (d : VarDecl) : Decidable (wfDecl d) :=
  inferInstanceAs (Decidable (tokenOk d.kind ∧ tokenOk d.widthS ∧
    tokenOk d.vid ∧ tokenOk d.vname ∧
    containsSub (renderDecl d) (sChars "$enddefinitions") = false))

/-- The base name the resolver extracts from a declaration's name token. -/
def declBaseOpt (d : VarDecl) : Option (List Char) :=
  match pySplitWs d.vname with
  | pn :: _ => some (pn.takeWhile (fun c => c ≠ '['))
  | [] => none

/-- Whether the resolver records this declaration for the wanted set. -/
def declAcceptedB (wanted : List (List Char)) (d : VarDecl) : Bool :=
  (decide (d.kind = sChars "wire" ∨ d.kind = sChars "reg" ∨
      d.kind = sChars "integer")) &&
  (parseDigits d.widthS).isSome &&
  (match declBaseOpt d with
   | some b => wanted.contains b
   | none => false)

/-- The header pass restricted to structured declarations. -/
def headerOfDecls (wanted : List (List Char)) (ds : List VarDecl) :
    List (List Char × List Char) × List (List Char × Nat) :=
  ds.foldl (fun acc d => acceptVar wanted acc (declParts d)) ([], [])

/-- Rows of the aligned series selected for label value `v`. -/
def listRows (key : List Int) (v : Int) : List Nat :=
  (List.range key.length).filter (fun i => key.getD i 0 = v)

/-- The same row selection as a finite set. -/
def rowSet (key : List Int) (v : Int) : Finset Nat := (listRows key v).toFinset

/-! ## Concrete traces used as witnesses and counterexamples -/

/-- The synthetic trace of the claimed end-to-end scenario: two 4-bit
registers `a` and `b`, events `#0`, `b1010` to each, `#10`. -/
def trClaimAB : List (List Char) :=
  [sChars "$var reg 4 ! a $end",
   sChars "$var reg 4 @ b $end",
   sChars "$enddefinitions $end",
   sChars "#0",
   sChars "b1010 !",
   sChars "b1010 @",
   sChars "#10"]

/-- The amended end-to-end trace: an unsigned-excluded register
(`state_select`) and a signed one (`b`), with ten timestamp markers so the
hardcoded 10-fold decimation takes exactly one snapshot. -/
def trAmended : List (List Char) :=
  [sChars "$var reg 4 ! state_select $end",
   sChars "$var reg 4 @ b $end",
   sChars "$enddefinitions $end",
   sChars "#0",
   sChars "b1010 !",
   sChars "b1010 @",
   sChars "#1", sChars "#2", sChars "#3", sChars "#4", sChars "#5",
   sChars "#6", sChars "#7", sChars "#8", sChars "#9"]

/-- A trace whose header declares the same base name `a` under two distinct
identifier tokens. -/
def trDupIds : List (List Char) :=
  [sChars "$var reg 4 ! a $end",
   sChars "$var reg 4 @ a $end",
   sChars "$enddefinitions $end",
   sChars "b0001 !",
   sChars "b0010 @",
   sChars "#0", sChars "#1", sChars "#2", sChars "#3", sChars "#4",
   sChars "#5", sChars "#6", sChars "#7", sChars "#8", sChars "#9"]

/-- A trace whose body has a timestamp-marker line with a non-integer
payload. -/
def trBadMarker : List (List Char) :=
  [sChars "$enddefinitions $end", sChars "#x"]

/-! ## Association-list lemmas -/

theorem lookupA_insertA_self {α : Type} (k : List Char) (v : α)
    (m : List (List Char × α)) : lookupA k (insertA k v m) = some v := by
  induction m with
  | nil => simp [insertA, lookupA]
  | cons p rest ih =>
    obtain ⟨k', v'⟩ := p
    simp only [insertA]
    by_cases h : k' = k
    · rw [if_pos h]
      simp [lookupA]
    · rw [if_neg h]
      simp only [lookupA]
      rw [if_neg h]
      exact ih

theorem lookupA_insertA_ne {α : Type} (k k₀ : List Char) (v : α)
    (m : List (List Char × α)) (h : k ≠ k₀) :
    lookupA k (insertA k₀ v m) = lookupA k m := by
  induction m with
  | nil =>
    simp only [insertA, lookupA]
    rw [if_neg (Ne.symm h)]
  | cons p rest ih =>
    obtain ⟨k', v'⟩ := p
    simp only [insertA]
    by_cases h' : k' = k₀
    · subst h'
      simp only [lookupA]
      rw [if_neg (Ne.symm h), if_neg (Ne.symm h)]
    · rw [if_neg h']
      simp only [lookupA]
      by_cases h'' : k' = k
      · rw [if_pos h'', if_pos h'']
      · rw [if_neg h'', if_neg h'', ih]

theorem lookupA_appendA_self {α : Type} (k : List Char) (v : α)
    (m : List (List Char × List α)) :
    lookupA k (appendA k v m) = (lookupA k m).map (fun xs => xs ++ [v]) := by
  induction m with
  | nil => simp [appendA, lookupA]
  | cons p rest ih =>
    obtain ⟨k', xs⟩ := p
    simp only [appendA]
    by_cases h : k' = k
    · rw [if_pos h]
      simp only [lookupA]
      rw [if_pos h, if_pos h]
      rfl
    · rw [if_neg h]
      simp only [lookupA]
      rw [if_neg h, if_neg h, ih]

theorem lookupA_appendA_ne {α : Type} (k k₀ : List Char) (v : α)
    (m : List (List Char × List α)) (h : k ≠ k₀) :
    lookupA k (appendA k₀ v m) = lookupA k m := by
  induction m with
  | nil => simp [appendA, lookupA]
  | cons p rest ih =>
    obtain ⟨k', xs⟩ := p
    simp only [appendA]
    by_cases h' : k' = k₀
    · subst h'
      rw [if_pos rfl]
      simp only [lookupA]
      rw [if_neg (Ne.symm h), if_neg (Ne.symm h)]
    · rw [if_neg h']
      simp only [lookupA]
      by_cases h'' : k' = k
      · rw [if_pos h'', if_pos h'']
      · rw [if_neg h'', if_neg h'', ih]

theorem appendA_map_fst {α : Type} (k : List Char) (v : α)
    (m : List (List Char × List α)) :
    (appendA k v m).map Prod.fst = m.map Prod.fst := by
  induction m with
  | nil => simp [appendA]
  | cons p rest ih =>
    obtain ⟨k', xs⟩ := p
    simp only [appendA]
    by_cases h : k' = k
    · rw [if_pos h]
      simp
    · rw [if_neg h]
      simp [ih]

theorem lenAt_appendA_le (name k : List Char) (v : Int)
    (sd : List (List Char × List Int)) :
    lenAt name (appendA k v sd) ≤ lenAt name sd + 1 := by
  by_cases h : name = k
  · subst h
    rw [lenAt, lenAt, lookupA_appendA_self]
    cases lookupA name sd <;> simp
  · rw [lenAt, lenAt, lookupA_appendA_ne _ _ _ _ h]
    exact Nat.le_succ _

theorem lenAt_appendA_ne (name k : List Char) (v : Int)
    (sd : List (List Char × List Int)) (h : name ≠ k) :
    lenAt name (appendA k v sd) = lenAt name sd := by
  rw [lenAt, lenAt, lookupA_appendA_ne _ _ _ _ h]

/-! ## Snapshot lemmas -/

theorem snapshot_cons (p : List Char × List Char) (ids : List (List Char × List Char))
    (lv : List (List Char × Int)) (sd : List (List Char × List Int)) :
    snapshot (p :: ids) lv sd =
      snapshot ids lv
        (match lookupA p.1 lv with
         | some v => appendA p.2 v sd
         | none => sd) := by
  rfl

theorem snapshot_map_fst (ids : List (List Char × List Char))
    (lv : List (List Char × Int)) (sd : List (List Char × List Int)) :
    (snapshot ids lv sd).map Prod.fst = sd.map Prod.fst := by
  induction ids generalizing sd with
  | nil => rfl
  | cons p rest ih =>
    rw [snapshot_cons]
    cases lookupA p.1 lv with
    | none => exact ih sd
    | some v =>
      rw [ih]
      exact appendA_map_fst _ _ _

theorem lenAt_snapshot_of_not_mem (name : List Char)
    (ids : List (List Char × List Char)) (lv : List (List Char × Int))
    (sd : List (List Char × List Int))
    (h : ∀ q ∈ ids, q.2 ≠ name) :
    lenAt name (snapshot ids lv sd) = lenAt name sd := by
  induction ids generalizing sd with
  | nil => rfl
  | cons p rest ih =>
    have h1 : p.2 ≠ name := h p (List.mem_cons_self _ _)
    have h2 : ∀ q ∈ rest, q.2 ≠ name := fun q hq => h q (List.mem_cons_of_mem _ hq)
    rw [snapshot_cons]
    cases lookupA p.1 lv with
    | none => exact ih sd h2
    | some v =>
      rw [ih _ h2, lenAt_appendA_ne _ _ _ _ (fun e => h1 e.symm)]

theorem lenAt_snapshot_le (name : List Char)
    (ids : List (List Char × List Char)) (lv : List (List Char × Int))
    (sd : List (List Char × List Int))
    (h : ids.countP (fun q => q.2 = name) ≤ 1) :
    lenAt name (snapshot ids lv sd) ≤ lenAt name sd + 1 := by
  induction ids generalizing sd with
  | nil =>
    simp [snapshot]
  | cons p rest ih =>
    rw [List.countP_cons] at h
    rw [snapshot_cons]
    by_cases hp : p.2 = name
    · have h2 : rest.countP (fun q => q.2 = name) = 0 := by
        split at h
        · omega
        · next hc => exact absurd (by simp [hp]) hc
      have h2' : ∀ q ∈ rest, q.2 ≠ name := by
        intro q hq
        have := List.countP_eq_zero.mp h2 q hq
        simpa using this
      cases hl : lookupA p.1 lv with
      | none =>
        rw [lenAt_snapshot_of_not_mem _ _ _ _ h2']
        exact Nat.le_succ _
      | some v =>
        rw [lenAt_snapshot_of_not_mem _ _ _ _ h2', hp]
        exact lenAt_appendA_le _ _ _ _
    · have h2 : rest.countP (fun q => q.2 = name) ≤ 1 := by
        split at h <;> omega
      cases hl : lookupA p.1 lv with
      | none => exact ih _ h2
      | some v =>
        calc lenAt name (snapshot rest lv (appendA p.2 v sd))
            ≤ lenAt name (appendA p.2 v sd) + 1 := ih _ h2
          _ = lenAt name sd + 1 := by
              rw [lenAt_appendA_ne _ _ _ _ (fun e => hp e.symm)]

/-! ## Step-level lemmas -/

theorem step_strip_empty (ids : List (List Char × List Char))
    (widths : List (List Char × Nat)) (maxS : Nat) (st : DecState)
    (raw : List Char) (h : pyStrip raw = []) :
    step ids widths maxS st raw = .next st := by
  unfold step
  rw [h]
  rfl

theorem step_marker (ids : List (List Char × List Char))
    (widths : List (List Char × Nat)) (maxS : Nat) (st : DecState)
    (raw : List Char) (rest : List Char) (h : pyStrip raw = '#' :: rest) :
    step ids widths maxS st raw =
      match parseIntPy rest with
      | none => .exc
      | some t =>
        let sc := st.sampleCount + 1
        let sd := if sc % 10 = 0 then snapshot ids st.lastValues st.signalData
                  else st.signalData
        let st' : DecState := ⟨st.lastValues, sd, sc, t⟩
        if maxS * 10 ≤ sc then .brk st' else .next st' := by
  unfold step
  rw [h]
  simp only [stepCore, if_true]

theorem step_nonmarker_preserves (ids : List (List Char × List Char))
    (widths : List (List Char × Nat)) (maxS : Nat) (st : DecState)
    (raw : List Char) (c : Char) (rest : List Char)
    (h : pyStrip raw = c :: rest) (hc : ¬ c = '#') :
    ∃ lv, step ids widths maxS st raw =
      .next ⟨lv, st.signalData, st.sampleCount, st.currentTime⟩ := by
  unfold step
  rw [h]
  simp only [stepCore]
  rw [if_neg hc]
  by_cases hb : c = 'b'
  · rw [if_pos hb]
    cases h1 : pySplitWs (c :: rest) with
    | nil => exact ⟨st.lastValues, rfl⟩
    | cons p0 t =>
      cases t with
      | nil => exact ⟨st.lastValues, rfl⟩
      | cons p1 t2 =>
        cases t2 with
        | nil =>
          simp only [bBranch]
          cases h2 : lookupA p1 ids with
          | none => exact ⟨st.lastValues, rfl⟩
          | some sigName =>
            cases h3 : parseBinPy (p0.drop 1) with
            | none => exact ⟨st.lastValues, rfl⟩
            | some v => exact ⟨_, rfl⟩
        | cons q qs => exact ⟨st.lastValues, rfl⟩
  · rw [if_neg hb]
    by_cases hs : (c = '0' ∨ c = '1' ∨ c = 'x' ∨ c = 'X' ∨ c = 'z' ∨ c = 'Z') ∧ rest ≠ []
    · rw [if_pos hs]
      by_cases h2 : (lookupA rest ids).isSome = true
      · rw [if_pos h2]
        by_cases h3 : c = '1'
        · rw [if_pos h3]
          exact ⟨_, rfl⟩
        · rw [if_neg h3]
          by_cases h4 : c = '0'
          · rw [if_pos h4]
            exact ⟨_, rfl⟩
          · rw [if_neg h4]
            exact ⟨st.lastValues, rfl⟩
      · rw [if_neg h2]
        exact ⟨st.lastValues, rfl⟩
    · rw [if_neg hs]
      exact ⟨st.lastValues, rfl⟩

theorem step_single_unknown (ids : List (List Char × List Char))
    (widths : List (List Char × Nat)) (maxS : Nat) (st : DecState)
    (raw : List Char) (c : Char) (rest : List Char)
    (h : pyStrip raw = c :: rest)
    (hc : c = 'x' ∨ c = 'X' ∨ c = 'z' ∨ c = 'Z') :
    step ids widths maxS st raw = .next st := by
  have e1 : ¬ c = '#' := by rcases hc with rfl | rfl | rfl | rfl <;> decide
  have e2 : ¬ c = 'b' := by rcases hc with rfl | rfl | rfl | rfl <;> decide
  have e3 : ¬ c = '1' := by rcases hc with rfl | rfl | rfl | rfl <;> decide
  have e4 : ¬ c = '0' := by rcases hc with rfl | rfl | rfl | rfl <;> decide
  unfold step
  rw [h]
  simp only [stepCore]
  rw [if_neg e1, if_neg e2]
  by_cases hs : (c = '0' ∨ c = '1' ∨ c = 'x' ∨ c = 'X' ∨ c = 'z' ∨ c = 'Z') ∧ rest ≠ []
  · rw [if_pos hs]
    by_cases h2 : (lookupA rest ids).isSome = true
    · rw [if_pos h2, if_neg e3, if_neg e4]
    · rw [if_neg h2]
  · rw [if_neg hs]

theorem step_marker_exc (ids : List (List Char × List Char))
    (widths : List (List Char × Nat)) (maxS : Nat) (st : DecState)
    (raw : List Char) (rest : List Char) (h : pyStrip raw = '#' :: rest)
    (hp : parseIntPy rest = none) :
    step ids widths maxS st raw = .exc := by
  rw [step_marker ids widths maxS st raw rest h, hp]

theorem step_bad_literal_skipped (ids : List (List Char × List Char))
    (widths : List (List Char × Nat)) (maxS : Nat) (st : DecState)
    (raw : List Char) (rest : List Char) (p0 p1 : List Char)
    (h : pyStrip raw = 'b' :: rest)
    (hsp : pySplitWs ('b' :: rest) = [p0, p1])
    (hbin : parseBinPy (p0.drop 1) = none) :
    step ids widths maxS st raw = .next st := by
  unfold step
  rw [h]
  simp only [stepCore, if_true]
  rw [hsp]
  simp only [bBranch]
  cases h2 : lookupA p1 ids with
  | none => simp
  | some sigName =>
    rw [hbin]
    simp

/-! ## Arithmetic facts for the two's-complement range -/

theorem twos_complement_unsigned (val : Int) (bits : Nat) :
    twos_complement val bits false = val := by
  simp [twos_complement]

theorem twos_complement_signed (val : Int) (bits : Nat) :
    twos_complement val bits true =
      if 2 ^ (bits - 1) ≤ val then val - 2 ^ bits else val := by
  simp [twos_complement]

/-! ## Claim C1 -/

/-- C1 (counterexample): the decoder accepts the 5-digit literal `10000`
for the unsigned-excluded 4-bit signal `state_select` and stores the value
16, which is not `< 2^4`; so the claimed range bound fails for literals
whose digit count exceeds the declared width. -/
theorem decoded_value_range_counterexample :
    step [(sChars "!", sChars "state_select")] [(sChars "!", 4)] 100000
        ⟨[], [(sChars "state_select", [])], 0, 0⟩ (sChars "b10000 !")
      = .next ⟨[(sChars "!", 16)], [(sChars "state_select", [])], 0, 0⟩
    ∧ ¬ ((16 : Int) < 2 ^ 4) := by
  constructor
  · decide
  · decide

/-- C1 (amended): restricted to accepted literals whose parsed value `v`
satisfies `0 ≤ v < 2^w` (in particular those of at most `w` digits), the
decoded value of a `w`-bit signal lies in `[0, 2^w)` when the signal's
name is in the unsigned-exclusion set, and in `[-2^(w-1), 2^(w-1)-1]`
otherwise. -/
theorem decoded_value_in_range_of_bounded_literal (name : List Char) (w : Nat)
    (v : Nat) (hw : 0 < w) (hv : (v : Int) < 2 ^ w) :
    (UNSIGNED_SIGNALS.contains name = true →
      twos_complement (v : Int) w (!(UNSIGNED_SIGNALS.contains name)) = (v : Int) ∧
      0 ≤ (v : Int) ∧ (v : Int) < 2 ^ w) ∧
    (UNSIGNED_SIGNALS.contains name = false →
      -(2 ^ (w - 1)) ≤ twos_complement (v : Int) w (!(UNSIGNED_SIGNALS.contains name)) ∧
      twos_complement (v : Int) w (!(UNSIGNED_SIGNALS.contains name)) ≤ 2 ^ (w - 1) - 1) := by
  have hA : (1 : Int) ≤ 2 ^ (w - 1) := by
    have := pow_pos (show (0 : Int) < 2 by norm_num) (w - 1)
    omega
  have hsplit : (2 : Int) ^ w = 2 * 2 ^ (w - 1) := by
    conv_lhs => rw [show w = (w - 1) + 1 from (Nat.succ_pred_eq_of_pos hw).symm]
    rw [pow_succ]
    ring
  have hv0 : (0 : Int) ≤ (v : Int) := Int.natCast_nonneg v
  constructor
  · intro h
    rw [h]
    exact ⟨twos_complement_unsigned _ _, hv0, hv⟩
  · intro h
    rw [h]
    simp only [Bool.not_false]
    rw [twos_complement_signed]
    by_cases hc : (2 : Int) ^ (w - 1) ≤ (v : Int)
    · rw [if_pos hc]
      constructor <;> omega
    · rw [if_neg hc]
      constructor <;> omega

/-- Witness for C1 (amended) at `state_select`, width 4, literal value 10. -/
theorem decoded_value_in_range_witness :
    (0 < 4 ∧ ((10 : Nat) : Int) < 2 ^ 4) ∧
    (UNSIGNED_SIGNALS.contains (sChars "state_select") = true →
      twos_complement ((10 : Nat) : Int) 4
          (!(UNSIGNED_SIGNALS.contains (sChars "state_select"))) = ((10 : Nat) : Int) ∧
      0 ≤ ((10 : Nat) : Int) ∧ ((10 : Nat) : Int) < 2 ^ 4) ∧
    (UNSIGNED_SIGNALS.contains (sChars "state_select") = false →
      -(2 ^ (4 - 1)) ≤ twos_complement ((10 : Nat) : Int) 4
          (!(UNSIGNED_SIGNALS.contains (sChars "state_select"))) ∧
      twos_complement ((10 : Nat) : Int) 4
          (!(UNSIGNED_SIGNALS.contains (sChars "state_select"))) ≤ 2 ^ (4 - 1) - 1) :=
  ⟨⟨by decide, by decide⟩,
   (decoded_value_in_range_of_bounded_literal (sChars "state_select") 4 10
     (by decide) (by decide)).1,
   (decoded_value_in_range_of_bounded_literal (sChars "state_select") 4 10
     (by decide) (by decide)).2⟩

/-! ## Claim C2 -/

/-- C2: a single-bit value-change line whose status character is `x`, `X`,
`z` or `Z` leaves the decoder state — in particular the last-known-value
table — exactly unchanged, whether or not the identifier is tracked. -/
theorem single_bit_unknown_preserves_signal_state
    (ids : List (List Char × List Char)) (widths : List (List Char × Nat))
    (maxS : Nat) (st : DecState) (raw : List Char) (c : Char) (rest : List Char)
    (h : pyStrip raw = c :: rest)
    (hc : c = 'x' ∨ c = 'X' ∨ c = 'z' ∨ c = 'Z') :
    step ids widths maxS st raw = .next st :=
  step_single_unknown ids widths maxS st raw c rest h hc

/-- Witness for C2: an `x` event on a tracked identifier with a known
previous value leaves the state unchanged. -/
theorem single_bit_unknown_preserves_signal_state_witness :
    pyStrip (sChars "x!") = 'x' :: sChars "!" ∧
    step [(sChars "!", sChars "a")] [(sChars "!", 1)] 100000
        ⟨[(sChars "!", 1)], [(sChars "a", [])], 3, 0⟩ (sChars "x!")
      = .next ⟨[(sChars "!", 1)], [(sChars "a", [])], 3, 0⟩ :=
  ⟨by decide,
   single_bit_unknown_preserves_signal_state [(sChars "!", sChars "a")]
     [(sChars "!", 1)] 100000 ⟨[(sChars "!", 1)], [(sChars "a", [])], 3, 0⟩
     (sChars "x!") 'x' (sChars "!") (by decide) (Or.inl rfl)⟩

/-! ## Claim C8 -/

/-- C8 (counterexample): the body line `#x` (a timestamp marker whose text
after `#` is not an integer) makes the whole parse raise — decoding does
not run to completion on every readable input. -/
theorem bad_marker_counterexample :
    parse_vcd_lightweight [] 100000 trBadMarker = none := by
  decide

/-- C8 (amended): a multi-bit event line whose binary literal fails to
parse is skipped silently — the decoder state is exactly unchanged and
decoding continues — but a timestamp-marker line whose text after `#` is
not an integer raises and aborts the parse. -/
theorem malformed_event_handling :
    (∀ ids widths maxS st raw rest p0 p1,
        pyStrip raw = 'b' :: rest →
        pySplitWs ('b' :: rest) = [p0, p1] →
        parseBinPy (p0.drop 1) = none →
        step ids widths maxS st raw = .next st) ∧
    (∀ ids widths maxS st raw rest,
        pyStrip raw = '#' :: rest →
        parseIntPy rest = none →
        step ids widths maxS st raw = .exc) :=
  ⟨fun ids widths maxS st raw rest p0 p1 h hsp hbin =>
    step_bad_literal_skipped ids widths maxS st raw rest p0 p1 h hsp hbin,
   fun ids widths maxS st raw rest h hp =>
    step_marker_exc ids widths maxS st raw rest h hp⟩

/-- Witness for C8 (amended): the tracked event `b1a2 !` is skipped with
the state unchanged, and the marker `#x` raises. -/
theorem malformed_event_handling_witness :
    step [(sChars "!", sChars "a")] [(sChars "!", 4)] 100000
        ⟨[], [(sChars "a", [])], 0, 0⟩ (sChars "b1a2 !")
      = .next ⟨[], [(sChars "a", [])], 0, 0⟩ ∧
    step [(sChars "!", sChars "a")] [(sChars "!", 4)] 100000
        ⟨[], [(sChars "a", [])], 0, 0⟩ (sChars "#x") = .exc :=
  ⟨malformed_event_handling.1 [(sChars "!", sChars "a")] [(sChars "!", 4)] 100000
      ⟨[], [(sChars "a", [])], 0, 0⟩ (sChars "b1a2 !") (sChars "1a2 !")
      (sChars "b1a2") (sChars "!") (by decide) (by decide) (by decide),
   malformed_event_handling.2 [(sChars "!", sChars "a")] [(sChars "!", 4)] 100000
      ⟨[], [(sChars "a", [])], 0, 0⟩ (sChars "#x") (sChars "x")
      (by decide) (by decide)⟩

/-! ## Claim C9 -/

/-- C9: when the partition key `state_select` is absent from the extracted
data, the segmenter returns exactly one segment labelled `NORMAL`
containing all the data unchanged (and, being a total function, does not
raise). -/
theorem segmenter_missing_key_fallback (data : List (List Char × List Int))
    (h : lookupA (sChars "state_select") data = none) :
    splitByState data = [(sChars "NORMAL", data)] := by
  unfold splitByState
  rw [h]

/-- Witness for C9 on a concrete extraction lacking `state_select`. -/
theorem segmenter_missing_key_fallback_witness :
    lookupA (sChars "state_select") [(sChars "theta_x", [1, -2])] = none ∧
    splitByState [(sChars "theta_x", [1, -2])]
      = [(sChars "NORMAL", [(sChars "theta_x", [1, -2])])] :=
  ⟨by decide,
   segmenter_missing_key_fallback [(sChars "theta_x", [1, -2])] (by decide)⟩

/-! ## Claim C7 -/

/-- C7 (counterexample): on the trace of the claimed scenario the parser
extracts nothing at all — the decimation stride is hardcoded to 10, so the
two markers `#0` and `#10` never trigger a snapshot (and, separately, `a`
is not in the unsigned-exclusion set). -/
theorem end_to_end_scenario_counterexample :
    parse_vcd_lightweight [sChars "a", sChars "b"] 100000 trClaimAB = some [] := by
  decide

/-- C7 (amended): with ten timestamp markers (one snapshot at the
hardcoded 10-fold decimation) and the excluded name `state_select` in
place of `a`, the binary events `1010` decode to 10 for the excluded
signal and to -6 for the signed 4-bit signal `b`. -/
theorem end_to_end_scenario_amended :
    parse_vcd_lightweight [sChars "state_select", sChars "b"] 100000 trAmended
      = some [(sChars "state_select", [10]), (sChars "b", [-6])] := by
  decide

/-! ## Claims C5 and C6: counterexamples -/

/-- C5 (counterexample): two declarations sharing the base name `a` under
distinct identifiers both remain in the resolver's table — the wanted name
appears twice, not exactly once, and neither declaration "wins". -/
theorem header_resolver_counterexample :
    (headerPass [sChars "a"] trDupIds).1
      = [(sChars "!", sChars "a"), (sChars "@", sChars "a")] ∧
    (headerPass [sChars "a"] trDupIds).1.countP (fun p => p.2 = sChars "a") = 2 := by
  constructor
  · decide
  · decide

/-- C6 (counterexample): with the base name `a` resolved to two distinct
identifiers, the single snapshot taken at the tenth marker appends two
samples, so the extracted series has length 2 although `max_samples = 1`. -/
theorem sample_budget_counterexample :
    parse_vcd_lightweight [sChars "a"] 1 trDupIds = some [(sChars "a", [1, 2])] ∧
    ¬ (([1, 2] : List Int).length ≤ 1) := by
  constructor
  · decide
  · decide

/-! ## Minimum-length and resampling lemmas (claim C3) -/

theorem foldlMin_le_init (l : List Nat) (x : Nat) : l.foldl min x ≤ x := by
  induction l generalizing x with
  | nil => exact Nat.le_refl x
  | cons y ys ih =>
    calc (y :: ys).foldl min x = ys.foldl min (min x y) := rfl
      _ ≤ min x y := ih _
      _ ≤ x := Nat.min_le_left _ _

theorem foldlMin_le_mem (l : List Nat) (x y : Nat) (hy : y ∈ l) :
    l.foldl min x ≤ y := by
  induction l generalizing x with
  | nil => cases hy
  | cons z zs ih =>
    rcases List.mem_cons.mp hy with rfl | hy'
    · calc (y :: zs).foldl min x = zs.foldl min (min x y) := rfl
        _ ≤ min x y := foldlMin_le_init _ _
        _ ≤ y := Nat.min_le_right _ _
    · exact ih _ hy'

theorem foldlMin_mem (l : List Nat) (x : Nat) :
    l.foldl min x = x ∨ l.foldl min x ∈ l := by
  induction l generalizing x with
  | nil => exact Or.inl rfl
  | cons y ys ih =>
    rcases ih (min x y) with h | h
    · rcases Nat.le_total x y with hxy | hxy
      · exact Or.inl (by rw [List.foldl_cons, h, Nat.min_eq_left hxy])
      · refine Or.inr ?_
        rw [List.foldl_cons, h, Nat.min_eq_right hxy]
        exact List.mem_cons_self _ _
    · exact Or.inr (List.mem_cons_of_mem _ h)

theorem minLenOf_le (data : List (List Char × List Int)) (p : List Char × List Int)
    (hp : p ∈ data) : minLenOf data ≤ p.2.length := by
  cases data with
  | nil => cases hp
  | cons d ds =>
    rcases List.mem_cons.mp hp with rfl | hp'
    · calc minLenOf (p :: ds) = (ds.map (fun q => q.2.length)).foldl min p.2.length := rfl
        _ ≤ p.2.length := foldlMin_le_init _ _
    · exact foldlMin_le_mem _ _ _ (List.mem_map_of_mem (fun q => q.2.length) hp')

theorem minLenOf_attained (data : List (List Char × List Int)) (h : data ≠ []) :
    ∃ p ∈ data, p.2.length = minLenOf data := by
  cases data with
  | nil => exact absurd rfl h
  | cons d ds =>
    have e : minLenOf (d :: ds) = (ds.map (fun q => q.2.length)).foldl min d.2.length := rfl
    rcases foldlMin_mem (ds.map (fun q => q.2.length)) d.2.length with hm | hm
    · exact ⟨d, List.mem_cons_self _ _, by rw [e, hm]⟩
    · rw [← e] at hm
      rcases List.mem_map.mp hm with ⟨q, hq, hql⟩
      exact ⟨q, List.mem_cons_of_mem _ hq, hql⟩

theorem linspaceIdx_length (n L : Nat) : (linspaceIdx n L).length = L := by
  unfold linspaceIdx
  by_cases h0 : L = 0
  · simp [h0]
  · rw [if_neg h0]
    by_cases h1 : L = 1
    · simp [h1]
    · rw [if_neg h1]
      simp

theorem linspaceIdx_lt (n L : Nat) (hn : 0 < n) (i : Nat)
    (hi : i ∈ linspaceIdx n L) : i < n := by
  unfold linspaceIdx at hi
  by_cases h0 : L = 0
  · simp [h0] at hi
  · rw [if_neg h0] at hi
    by_cases h1 : L = 1
    · simp [h1] at hi
      omega
    · rw [if_neg h1] at hi
      rcases List.mem_map.mp hi with ⟨k, hk, rfl⟩
      have hkL : k ≤ L - 1 := by
        have := List.mem_range.mp hk
        omega
      have h2 : k * (n - 1) ≤ (L - 1) * (n - 1) := Nat.mul_le_mul_right _ hkL
      have h3 : k * (n - 1) / (L - 1) ≤ (L - 1) * (n - 1) / (L - 1) :=
        Nat.div_le_div_right h2
      have hL1 : 0 < L - 1 := by omega
      rw [Nat.mul_div_cancel_left _ hL1] at h3
      omega

theorem resample_eq_of_le (xs : List Int) (L : Nat) (h : xs.length ≤ L) :
    resample xs L = xs := by
  unfold resample
  rw [if_neg (by omega)]

theorem resample_length (xs : List Int) (L : Nat) (h : L ≤ xs.length) :
    (resample xs L).length = L := by
  unfold resample
  by_cases h' : L < xs.length
  · rw [if_pos h']
    rw [List.length_map, linspaceIdx_length]
  · rw [if_neg h']
    omega

/-! ## Claim C3 -/

/-- C3: after length reconciliation every series has the common length
`L = minLenOf data` (the minimum of the pre-reconciliation lengths, which
is attained); series already of length `L` are unchanged, longer series
are reduced to the evenly spaced index selection `⌊k(n-1)/(L-1)⌋`
(`k < L`) of their own literal elements, and every selected index is in
range — no value is interpolated. -/
theorem reconcile_aligns_lengths (data : List (List Char × List Int))
    (hne : data ≠ []) :
    (∀ p ∈ data, minLenOf data ≤ p.2.length) ∧
    (∃ p ∈ data, p.2.length = minLenOf data) ∧
    (∀ q ∈ reconcile data, q.2.length = minLenOf data) ∧
    (∀ p ∈ data, p.2.length = minLenOf data → (p.1, p.2) ∈ reconcile data) ∧
    (∀ p ∈ data, minLenOf data < p.2.length →
      (p.1, (linspaceIdx p.2.length (minLenOf data)).map (fun i => p.2.getD i 0))
        ∈ reconcile data) ∧
    (∀ p ∈ data, ∀ i ∈ linspaceIdx p.2.length (minLenOf data), i < p.2.length) := by
  refine ⟨fun p hp => minLenOf_le data p hp, minLenOf_attained data hne, ?_, ?_, ?_, ?_⟩
  · intro q hq
    rcases List.mem_map.mp hq with ⟨p, hp, rfl⟩
    exact resample_length _ _ (minLenOf_le data p hp)
  · intro p hp hlen
    have : resample p.2 (minLenOf data) = p.2 :=
      resample_eq_of_le _ _ (by omega)
    have hmem : (p.1, resample p.2 (minLenOf data)) ∈ reconcile data :=
      List.mem_map_of_mem _ hp
    rwa [this] at hmem
  · intro p hp hlt
    have : resample p.2 (minLenOf data)
        = (linspaceIdx p.2.length (minLenOf data)).map (fun i => p.2.getD i 0) := by
      unfold resample
      rw [if_pos hlt]
    have hmem : (p.1, resample p.2 (minLenOf data)) ∈ reconcile data :=
      List.mem_map_of_mem _ hp
    rwa [this] at hmem
  · intro p hp i hi
    have hn : 0 < p.2.length := by
      by_contra h0
      have hlen : p.2.length = 0 := by omega
      have hL : minLenOf data = 0 := by
        have := minLenOf_le data p hp
        omega
      rw [hlen, hL] at hi
      simp [linspaceIdx] at hi
    exact linspaceIdx_lt _ _ hn i hi

/-- Witness for C3 on a two-signal extraction of lengths 3 and 2. -/
theorem reconcile_aligns_lengths_witness :
    ([(sChars "k", [5, 7, 9]), (sChars "m", [1, 2])] :
        List (List Char × List Int)) ≠ [] ∧
    ((∀ p ∈ ([(sChars "k", [5, 7, 9]), (sChars "m", [1, 2])] :
        List (List Char × List Int)),
      minLenOf [(sChars "k", [5, 7, 9]), (sChars "m", [1, 2])] ≤ p.2.length) ∧
    (∃ p ∈ ([(sChars "k", [5, 7, 9]), (sChars "m", [1, 2])] :
        List (List Char × List Int)),
      p.2.length = minLenOf [(sChars "k", [5, 7, 9]), (sChars "m", [1, 2])]) ∧
    (∀ q ∈ reconcile [(sChars "k", [5, 7, 9]), (sChars "m", [1, 2])],
      q.2.length = minLenOf [(sChars "k", [5, 7, 9]), (sChars "m", [1, 2])]) ∧
    (∀ p ∈ ([(sChars "k", [5, 7, 9]), (sChars "m", [1, 2])] :
        List (List Char × List Int)),
      p.2.length = minLenOf [(sChars "k", [5, 7, 9]), (sChars "m", [1, 2])] →
      (p.1, p.2) ∈ reconcile [(sChars "k", [5, 7, 9]), (sChars "m", [1, 2])]) ∧
    (∀ p ∈ ([(sChars "k", [5, 7, 9]), (sChars "m", [1, 2])] :
        List (List Char × List Int)),
      minLenOf [(sChars "k", [5, 7, 9]), (sChars "m", [1, 2])] < p.2.length →
      (p.1, (linspaceIdx p.2.length
          (minLenOf [(sChars "k", [5, 7, 9]), (sChars "m", [1, 2])])).map
            (fun i => p.2.getD i 0))
        ∈ reconcile [(sChars "k", [5, 7, 9]), (sChars "m", [1, 2])]) ∧
    (∀ p ∈ ([(sChars "k", [5, 7, 9]), (sChars "m", [1, 2])] :
        List (List Char × List Int)),
      ∀ i ∈ linspaceIdx p.2.length
          (minLenOf [(sChars "k", [5, 7, 9]), (sChars "m", [1, 2])]),
        i < p.2.length)) :=
  ⟨by decide,
   reconcile_aligns_lengths [(sChars "k", [5, 7, 9]), (sChars "m", [1, 2])]
     (by decide)⟩

/-! ## Segmentation lemmas (claim C4) -/

theorem maskOf_any (key : List Int) (v : Int) :
    (maskOf key v).any (fun b => b) = decide (v ∈ key) := by
  induction key with
  | nil => simp [maskOf]
  | cons k ks ih =>
    simp only [maskOf, List.map_cons, List.any_cons]
    rw [show (ks.map (fun x => decide (x = v))).any (fun b => b)
        = decide (v ∈ ks) from ih]
    by_cases hk : k = v
    · simp [hk]
    · have hkv : ¬ v = k := fun e => hk e.symm
      simp [hk, List.mem_cons, hkv]

theorem applyMask_cons (x : Int) (xs : List Int) (b : Bool) (mask : List Bool) :
    applyMask (x :: xs) (b :: mask) = (if b then [x] else []) ++ applyMask xs mask := by
  cases b <;> simp [applyMask]

theorem listRows_cons (k : Int) (ks : List Int) (v : Int) :
    listRows (k :: ks) v
      = (if k = v then [0] else []) ++ (listRows ks v).map (fun i => i + 1) := by
  have tail_eq : (List.range ks.length).filter
        ((fun i => decide ((k :: ks).getD i 0 = v)) ∘ Nat.succ)
      = (List.range ks.length).filter (fun i => decide (ks.getD i 0 = v)) := by
    apply List.filter_congr
    intro i _
    simp [Function.comp, List.getD_cons_succ]
  simp only [listRows, List.length_cons, List.range_succ_eq_map, List.filter_cons,
    List.filter_map, tail_eq, List.getD_cons_zero]
  by_cases hk : k = v
  · simp [hk, Nat.succ_eq_add_one]
  · simp [hk, Nat.succ_eq_add_one]

theorem applyMask_maskOf (key : List Int) (v : Int) (xs : List Int)
    (h : xs.length = key.length) :
    applyMask xs (maskOf key v) = (listRows key v).map (fun i => xs.getD i 0) := by
  induction key generalizing xs with
  | nil =>
    have : xs = [] := List.length_eq_zero.mp (by simpa using h)
    subst this
    simp [applyMask, maskOf, listRows]
  | cons k ks ih =>
    cases xs with
    | nil => simp at h
    | cons x xs' =>
      have hlen : xs'.length = ks.length := by simpa using h
      rw [show maskOf (k :: ks) v = (decide (k = v)) :: maskOf ks v from rfl]
      rw [applyMask_cons, listRows_cons, ih xs' hlen]
      by_cases hk : k = v
      · simp [hk, List.map_map, Function.comp, List.getD_cons_succ,
          List.getD_cons_zero]
      · simp [hk, List.map_map, Function.comp, List.getD_cons_succ]

theorem mem_rowSet (key : List Int) (v : Int) (i : Nat) :
    i ∈ rowSet key v ↔ i < key.length ∧ key.getD i 0 = v := by
  simp [rowSet, listRows, List.mem_filter, List.mem_range]

theorem rowSet_biUnion (key : List Int) (hvals : ∀ v ∈ key, 0 ≤ v ∧ v < 5) :
    (Finset.range 5).biUnion (fun idx => rowSet key (idx : Int))
      = Finset.range key.length := by
  ext i
  simp only [Finset.mem_biUnion, Finset.mem_range, mem_rowSet]
  constructor
  · rintro ⟨idx, _, hi, _⟩
    exact hi
  · intro hi
    have hmem : key.getD i 0 ∈ key := by
      rw [List.getD_eq_getElem key 0 hi]
      exact List.getElem_mem hi
    obtain ⟨h0, h5⟩ := hvals _ hmem
    refine ⟨(key.getD i 0).toNat, by omega, hi, ?_⟩
    rw [Int.toNat_of_nonneg h0]

theorem rowSet_disjoint (key : List Int) (a b : Nat) (hne : a ≠ b) :
    Disjoint (rowSet key (a : Int)) (rowSet key (b : Int)) := by
  rw [Finset.disjoint_left]
  intro i hia hib
  rw [mem_rowSet] at hia hib
  have hab : (a : Int) = (b : Int) := by rw [← hia.2, hib.2]
  exact hne (by exact_mod_cast hab)

theorem segNames_aux (pairs : List (Nat × List Char))
    (data : List (List Char × List Int)) (key : List Int) :
    ((pairs.filterMap (fun p =>
        if (maskOf key (p.1 : Int)).any (fun b => b)
        then some (p.2, segFor data (maskOf key (p.1 : Int))) else none)).map
          Prod.fst)
      = (pairs.filter
          (fun p => (maskOf key (p.1 : Int)).any (fun b => b))).map Prod.snd := by
  induction pairs with
  | nil => rfl
  | cons p ps ih =>
    cases hb : (maskOf key (p.1 : Int)).any (fun b => b) with
    | true =>
      simp only [List.filterMap_cons, List.filter_cons, hb, eq_self_iff_true,
        if_true, List.map_cons]
      rw [ih]
    | false =>
      simp only [List.filterMap_cons, List.filter_cons, hb]
      rw [if_neg (fun h => Bool.noConfusion h), if_neg (fun h => Bool.noConfusion h)]
      exact ih

theorem segment_names (data : List (List Char × List Int)) (key : List Int) :
    (segmentByState data key).map Prod.fst
      = (stateNames.enum.filter
          (fun p => decide ((p.1 : Int) ∈ key))).map Prod.snd := by
  simp only [segmentByState]
  rw [segNames_aux]
  congr 1
  apply List.filter_congr
  intro p hp
  exact maskOf_any key _

/-! ## Claim C4 -/

/-- C4: for a partition key whose values all lie in the label enumeration
`0..4`, the produced segments are exactly one per occurring label (in
enumeration order), the per-label row sets cover `[0, L)` with no overlap,
membership is per-row value equality, and each segment's series is the
literal row selection of the aligned series. -/
theorem segmentation_partitions_rows (data : List (List Char × List Int))
    (key : List Int) (hvals : ∀ v ∈ key, 0 ≤ v ∧ v < 5) :
    ((segmentByState data key).map Prod.fst
      = (stateNames.enum.filter
          (fun p => decide ((p.1 : Int) ∈ key))).map Prod.snd) ∧
    ((Finset.range 5).biUnion (fun idx => rowSet key (idx : Int))
      = Finset.range key.length) ∧
    (∀ a b : Nat, a ≠ b → Disjoint (rowSet key (a : Int)) (rowSet key (b : Int))) ∧
    (∀ v : Int, ∀ i : Nat, i ∈ rowSet key v ↔ i < key.length ∧ key.getD i 0 = v) ∧
    (∀ v : Int, ∀ xs : List Int, xs.length = key.length →
      applyMask xs (maskOf key v) = (listRows key v).map (fun i => xs.getD i 0)) :=
  ⟨segment_names data key, rowSet_biUnion key hvals,
   fun a b hne => rowSet_disjoint key a b hne,
   fun v i => mem_rowSet key v i, fun v xs h => applyMask_maskOf key v xs h⟩

/-- Witness for C4 on the spec's six-row example key `[0,0,1,1,0,1]`. -/
theorem segmentation_partitions_rows_witness :
    (∀ v ∈ ([0, 0, 1, 1, 0, 1] : List Int), 0 ≤ v ∧ v < 5) ∧
    (((segmentByState [(sChars "state_select", [0, 0, 1, 1, 0, 1]),
          (sChars "y", [9, 8, 7, 6, 5, 4])] [0, 0, 1, 1, 0, 1]).map Prod.fst
      = (stateNames.enum.filter
          (fun p => decide ((p.1 : Int) ∈ ([0, 0, 1, 1, 0, 1] : List Int)))).map
            Prod.snd) ∧
    ((Finset.range 5).biUnion
        (fun idx => rowSet [0, 0, 1, 1, 0, 1] (idx : Int))
      = Finset.range ([0, 0, 1, 1, 0, 1] : List Int).length) ∧
    (∀ a b : Nat, a ≠ b →
      Disjoint (rowSet [0, 0, 1, 1, 0, 1] (a : Int))
        (rowSet [0, 0, 1, 1, 0, 1] (b : Int))) ∧
    (∀ v : Int, ∀ i : Nat, i ∈ rowSet [0, 0, 1, 1, 0, 1] v ↔
      i < ([0, 0, 1, 1, 0, 1] : List Int).length ∧
      ([0, 0, 1, 1, 0, 1] : List Int).getD i 0 = v) ∧
    (∀ v : Int, ∀ xs : List Int,
      xs.length = ([0, 0, 1, 1, 0, 1] : List Int).length →
      applyMask xs (maskOf [0, 0, 1, 1, 0, 1] v)
        = (listRows [0, 0, 1, 1, 0, 1] v).map (fun i => xs.getD i 0))) :=
  ⟨by decide,
   segmentation_partitions_rows
     [(sChars "state_select", [0, 0, 1, 1, 0, 1]), (sChars "y", [9, 8, 7, 6, 5, 4])]
     [0, 0, 1, 1, 0, 1] (by decide)⟩

/-! ## Run-level lemmas (claims C6 and C10) -/

theorem step_marker_some (ids : List (List Char × List Char))
    (widths : List (List Char × Nat)) (maxS : Nat) (st : DecState)
    (raw rest : List Char) (t : Int)
    (h : pyStrip raw = '#' :: rest) (ht : parseIntPy rest = some t) :
    step ids widths maxS st raw =
      if maxS * 10 ≤ st.sampleCount + 1 then
        .brk ⟨st.lastValues,
          (if (st.sampleCount + 1) % 10 = 0
           then snapshot ids st.lastValues st.signalData else st.signalData),
          st.sampleCount + 1, t⟩
      else
        .next ⟨st.lastValues,
          (if (st.sampleCount + 1) % 10 = 0
           then snapshot ids st.lastValues st.signalData else st.signalData),
          st.sampleCount + 1, t⟩ := by
  unfold step
  rw [h]
  simp only [stepCore, if_true]
  rw [ht]

theorem runBody_cons_inv (ids : List (List Char × List Char))
    (widths : List (List Char × Nat)) (maxS : Nat) (st : DecState)
    (l : List Char) (ls : List (List Char)) (st' : DecState)
    (h : runBody ids widths maxS st (l :: ls) = some st') :
    (∃ st₂, step ids widths maxS st l = .next st₂ ∧
      runBody ids widths maxS st₂ ls = some st') ∨
    (step ids widths maxS st l = .brk st') := by
  simp only [runBody] at h
  cases hstep : step ids widths maxS st l with
  | next st₂ =>
    rw [hstep] at h
    exact Or.inl ⟨st₂, rfl, h⟩
  | brk st₂ =>
    rw [hstep] at h
    have h' : some st₂ = some st' := h
    injection h' with e
    subst e
    exact Or.inr rfl
  | exc =>
    rw [hstep] at h
    exact Option.noConfusion h

theorem isMarkerL_true (raw rest : List Char) (h : pyStrip raw = '#' :: rest) :
    isMarkerL raw = true := by
  unfold isMarkerL
  rw [h]
  rfl

theorem isMarkerL_false_nil (raw : List Char) (h : pyStrip raw = []) :
    isMarkerL raw = false := by
  unfold isMarkerL
  rw [h]

theorem isMarkerL_false_of_ne (raw : List Char) (c : Char) (rest : List Char)
    (h : pyStrip raw = c :: rest) (hc : c ≠ '#') : isMarkerL raw = false := by
  unfold isMarkerL
  rw [h]
  split
  · next heq =>
    injection heq with e1 e2
    exact absurd e1 hc
  · rfl

theorem lookupA_mem {α : Type} (k : List Char) (v : α) (m : List (List Char × α))
    (h : lookupA k m = some v) : (k, v) ∈ m := by
  induction m with
  | nil => cases h
  | cons p rest ih =>
    obtain ⟨k', v'⟩ := p
    simp only [lookupA] at h
    by_cases hk : k' = k
    · rw [if_pos hk] at h
      injection h with hv
      subst hk
      subst hv
      exact List.mem_cons_self _ _
    · rw [if_neg hk] at h
      exact List.mem_cons_of_mem _ (ih h)

theorem initData_values (wanted : List (List Char))
    (ids : List (List Char × List Char)) :
    ∀ p ∈ initData wanted ids, p.2 = [] := by
  intro p hp
  unfold initData at hp
  rcases List.mem_filterMap.mp hp with ⟨s, _, hsome⟩
  split at hsome
  · injection hsome with e
    rw [← e]
  · cases hsome

theorem lenAt_eq_zero (name : List Char) (sd : List (List Char × List Int))
    (h : ∀ p ∈ sd, p.2 = []) : lenAt name sd = 0 := by
  unfold lenAt
  cases hl : lookupA name sd with
  | none => rfl
  | some v =>
    have hv := h (name, v) (lookupA_mem name v sd hl)
    simp only at hv
    rw [hv]
    rfl

theorem resultOf_eq_nil (sd : List (List Char × List Int))
    (h : ∀ p ∈ sd, p.2 = []) : resultOf sd = [] := by
  unfold resultOf
  rw [List.filter_eq_nil_iff]
  intro p hp
  rw [h p hp]
  decide

theorem mem_resultOf (sd : List (List Char × List Int)) (name : List Char) :
    name ∈ (resultOf sd).map Prod.fst ↔ ∃ v, (name, v) ∈ sd ∧ v ≠ [] := by
  simp only [resultOf, List.mem_map, List.mem_filter]
  constructor
  · rintro ⟨⟨k, v⟩, ⟨hmem, hne⟩, rfl⟩
    refine ⟨v, hmem, ?_⟩
    simpa using hne
  · rintro ⟨v, hmem, hne⟩
    refine ⟨(name, v), ⟨hmem, ?_⟩, rfl⟩
    simpa using hne

theorem runBody_few_markers (ids : List (List Char × List Char))
    (widths : List (List Char × Nat)) (maxS : Nat) :
    ∀ (ls : List (List Char)) (st st' : DecState),
      runBody ids widths maxS st ls = some st' →
      st.sampleCount + ls.countP (fun l => isMarkerL l) < 10 →
      st'.signalData = st.signalData := by
  intro ls
  induction ls with
  | nil =>
    intro st st' h _
    have h' : some st = some st' := h
    injection h' with e
    rw [← e]
  | cons l ls ih =>
    intro st st' h hcount
    rw [List.countP_cons] at hcount
    rcases runBody_cons_inv _ _ _ _ _ _ _ h with ⟨st₂, hstep, hrest⟩ | hstep
    · cases hstrip : pyStrip l with
      | nil =>
        rw [step_strip_empty _ _ _ _ _ hstrip] at hstep
        injection hstep with e
        subst e
        have hm : isMarkerL l = false := isMarkerL_false_nil l hstrip
        simp only [hm] at hcount
        exact ih _ st' hrest (by omega)
      | cons c rest =>
        by_cases hc : c = '#'
        · subst hc
          have hm : isMarkerL l = true := isMarkerL_true l rest hstrip
          simp only [hm] at hcount
          cases hint : parseIntPy rest with
          | none =>
            rw [step_marker_exc _ _ _ _ _ _ hstrip hint] at hstep
            cases hstep
          | some t =>
            rw [step_marker_some _ _ _ _ _ _ t hstrip hint] at hstep
            have hmod : ¬ ((st.sampleCount + 1) % 10 = 0) := by
              simp at hcount
              omega
            rw [if_neg hmod] at hstep
            by_cases hbrk : maxS * 10 ≤ st.sampleCount + 1
            · rw [if_pos hbrk] at hstep
              cases hstep
            · rw [if_neg hbrk] at hstep
              injection hstep with e
              subst e
              have hres := ih _ st' hrest (by
                show st.sampleCount + 1 + ls.countP (fun l => isMarkerL l) < 10
                simp at hcount
                omega)
              exact hres
        · rcases step_nonmarker_preserves ids widths maxS st l c rest hstrip hc
            with ⟨lv, hstep'⟩
          rw [hstep'] at hstep
          injection hstep with e
          subst e
          have hm : isMarkerL l = false := isMarkerL_false_of_ne l c rest hstrip hc
          simp only [hm] at hcount
          exact ih ⟨lv, st.signalData, st.sampleCount, st.currentTime⟩ st' hrest
            (by show st.sampleCount + ls.countP (fun l => isMarkerL l) < 10; omega)
    · cases hstrip : pyStrip l with
      | nil =>
        rw [step_strip_empty _ _ _ _ _ hstrip] at hstep
        cases hstep
      | cons c rest =>
        by_cases hc : c = '#'
        · subst hc
          have hm : isMarkerL l = true := isMarkerL_true l rest hstrip
          simp only [hm] at hcount
          cases hint : parseIntPy rest with
          | none =>
            rw [step_marker_exc _ _ _ _ _ _ hstrip hint] at hstep
            cases hstep
          | some t =>
            rw [step_marker_some _ _ _ _ _ _ t hstrip hint] at hstep
            have hmod : ¬ ((st.sampleCount + 1) % 10 = 0) := by
              simp at hcount
              omega
            rw [if_neg hmod] at hstep
            by_cases hbrk : maxS * 10 ≤ st.sampleCount + 1
            · rw [if_pos hbrk] at hstep
              injection hstep with e
              rw [← e]
            · rw [if_neg hbrk] at hstep
              cases hstep
        · rcases step_nonmarker_preserves ids widths maxS st l c rest hstrip hc
            with ⟨lv, hstep'⟩
          rw [hstep'] at hstep
          cases hstep

theorem runBody_budget (ids : List (List Char × List Char))
    (widths : List (List Char × Nat)) (maxS : Nat) (name : List Char)
    (huniq : ids.countP (fun q => q.2 = name) ≤ 1) :
    ∀ (ls : List (List Char)) (st st' : DecState),
      runBody ids widths maxS st ls = some st' →
      (st.sampleCount < 10 * maxS ∨ st.sampleCount = 0) →
      lenAt name st.signalData ≤ st.sampleCount / 10 →
      lenAt name st'.signalData ≤ maxS := by
  intro ls
  induction ls with
  | nil =>
    intro st st' h hinv hlen
    have h' : some st = some st' := h
    injection h' with e
    subst e
    rcases hinv with hlt | h0 <;> omega
  | cons l ls ih =>
    intro st st' h hinv hlen
    rcases runBody_cons_inv _ _ _ _ _ _ _ h with ⟨st₂, hstep, hrest⟩ | hstep
    · cases hstrip : pyStrip l with
      | nil =>
        rw [step_strip_empty _ _ _ _ _ hstrip] at hstep
        injection hstep with e
        subst e
        exact ih st st' hrest hinv hlen
      | cons c rest =>
        by_cases hc : c = '#'
        · subst hc
          cases hint : parseIntPy rest with
          | none =>
            rw [step_marker_exc _ _ _ _ _ _ hstrip hint] at hstep
            cases hstep
          | some t =>
            rw [step_marker_some _ _ _ _ _ _ t hstrip hint] at hstep
            by_cases hbrk : maxS * 10 ≤ st.sampleCount + 1
            · rw [if_pos hbrk] at hstep
              cases hstep
            · rw [if_neg hbrk] at hstep
              injection hstep with e
              subst e
              have hinv₂ : st.sampleCount + 1 < 10 * maxS ∨ st.sampleCount + 1 = 0 := by
                omega
              have hlen₂ : lenAt name (if (st.sampleCount + 1) % 10 = 0
                    then snapshot ids st.lastValues st.signalData
                    else st.signalData) ≤ (st.sampleCount + 1) / 10 := by
                by_cases hmod : (st.sampleCount + 1) % 10 = 0
                · rw [if_pos hmod]
                  have hb := lenAt_snapshot_le name ids st.lastValues st.signalData huniq
                  omega
                · rw [if_neg hmod]
                  omega
              exact ih _ st' hrest hinv₂ hlen₂
        · rcases step_nonmarker_preserves ids widths maxS st l c rest hstrip hc
            with ⟨lv, hstep'⟩
          rw [hstep'] at hstep
          injection hstep with e
          subst e
          exact ih ⟨lv, st.signalData, st.sampleCount, st.currentTime⟩ st' hrest
            (by show st.sampleCount < 10 * maxS ∨ st.sampleCount = 0; exact hinv)
            (by show lenAt name st.signalData ≤ st.sampleCount / 10; exact hlen)
    · cases hstrip : pyStrip l with
      | nil =>
        rw [step_strip_empty _ _ _ _ _ hstrip] at hstep
        cases hstep
      | cons c rest =>
        by_cases hc : c = '#'
        · subst hc
          cases hint : parseIntPy rest with
          | none =>
            rw [step_marker_exc _ _ _ _ _ _ hstrip hint] at hstep
            cases hstep
          | some t =>
            rw [step_marker_some _ _ _ _ _ _ t hstrip hint] at hstep
            by_cases hbrk : maxS * 10 ≤ st.sampleCount + 1
            · rw [if_pos hbrk] at hstep
              injection hstep with e
              subst e
              show lenAt name (if (st.sampleCount + 1) % 10 = 0
                  then snapshot ids st.lastValues st.signalData
                  else st.signalData) ≤ maxS
              by_cases hmod : (st.sampleCount + 1) % 10 = 0
              · rw [if_pos hmod]
                have hb := lenAt_snapshot_le name ids st.lastValues st.signalData huniq
                rcases hinv with hlt | h0 <;> omega
              · rw [if_neg hmod]
                rcases hinv with hlt | h0 <;> omega
            · rw [if_neg hbrk] at hstep
              cases hstep
        · rcases step_nonmarker_preserves ids widths maxS st l c rest hstrip hc
            with ⟨lv, hstep'⟩
          rw [hstep'] at hstep
          cases hstep

/-! ## Claim C10 -/

/-- C10: when the decoding loop completes in state `st`, the parse result
is exactly the nonempty-series filter of `st`'s collected data — a name
has an entry iff some snapshot appended a value for it — and when the
trace has fewer than 10 timestamp-marker lines no snapshot ever fires, so
the result is the empty mapping even if wanted signals received events. -/
theorem result_iff_sampled (wanted : List (List Char)) (maxS : Nat)
    (lines : List (List Char)) (st : DecState)
    (hrun : runBody (headerPass wanted lines).1 (headerPass wanted lines).2 maxS
      ⟨[], initData wanted (headerPass wanted lines).1, 0, 0⟩ lines = some st) :
    parse_vcd_lightweight wanted maxS lines = some (resultOf st.signalData) ∧
    (∀ name, name ∈ (resultOf st.signalData).map Prod.fst ↔
      ∃ v, (name, v) ∈ st.signalData ∧ v ≠ []) ∧
    (lines.countP (fun l => isMarkerL l) < 10 → resultOf st.signalData = []) := by
  refine ⟨?_, fun name => mem_resultOf _ _, ?_⟩
  · simp only [parse_vcd_lightweight]
    rw [hrun]
  · intro hcount
    have hsd := runBody_few_markers _ _ _ lines _ _ hrun
      (by show 0 + lines.countP (fun l => isMarkerL l) < 10; omega)
    rw [hsd]
    exact resultOf_eq_nil _ (initData_values _ _)

/-- Witness for C10 on the two-marker trace of the claimed end-to-end
scenario: the run completes, and the result is empty. -/
theorem result_iff_sampled_witness :
    runBody (headerPass [sChars "a", sChars "b"] trClaimAB).1
        (headerPass [sChars "a", sChars "b"] trClaimAB).2 100000
        ⟨[], initData [sChars "a", sChars "b"]
            (headerPass [sChars "a", sChars "b"] trClaimAB).1, 0, 0⟩ trClaimAB
      = some ⟨[(sChars "!", -6), (sChars "@", -6)],
              [(sChars "a", []), (sChars "b", [])], 2, 10⟩ ∧
    (parse_vcd_lightweight [sChars "a", sChars "b"] 100000 trClaimAB
      = some (resultOf [(sChars "a", []), (sChars "b", [])]) ∧
    (∀ name, name ∈ (resultOf [(sChars "a", []), (sChars "b", [])]).map Prod.fst ↔
      ∃ v, (name, v) ∈ [(sChars "a", ([] : List Int)), (sChars "b", [])] ∧ v ≠ []) ∧
    (trClaimAB.countP (fun l => isMarkerL l) < 10 →
      resultOf [(sChars "a", []), (sChars "b", [])] = [])) :=
  ⟨by decide,
   result_iff_sampled [sChars "a", sChars "b"] 100000 trClaimAB
     ⟨[(sChars "!", -6), (sChars "@", -6)],
      [(sChars "a", []), (sChars "b", [])], 2, 10⟩ (by decide)⟩

/-! ## Claim C6 (amended) -/

/-- C6 (amended): a timestamp-marker line increments the marker count,
snapshots exactly when the new count is a multiple of 10, and breaks
exactly once the count reaches `10 * max_samples`; any non-marker line
leaves the collected series and the count untouched (so all value changes
between two markers land in the last-known table read by the later
marker's snapshot); consequently — provided each tracked name resolves to
at most one identifier — every collected series has length at most
`max_samples`.  (Without that proviso the bound fails, see the
counterexample: a name declared under two identifiers gains two samples
per snapshot.) -/
theorem decimation_and_sample_budget :
    (∀ ids widths maxS (st : DecState) (raw rest : List Char) (t : Int),
      pyStrip raw = '#' :: rest → parseIntPy rest = some t →
      step ids widths maxS st raw =
        if maxS * 10 ≤ st.sampleCount + 1 then
          .brk ⟨st.lastValues,
            (if (st.sampleCount + 1) % 10 = 0
             then snapshot ids st.lastValues st.signalData else st.signalData),
            st.sampleCount + 1, t⟩
        else
          .next ⟨st.lastValues,
            (if (st.sampleCount + 1) % 10 = 0
             then snapshot ids st.lastValues st.signalData else st.signalData),
            st.sampleCount + 1, t⟩) ∧
    (∀ ids widths maxS (st : DecState) (raw : List Char) (c : Char)
        (rest : List Char), pyStrip raw = c :: rest → ¬ c = '#' →
      ∃ lv, step ids widths maxS st raw =
        .next ⟨lv, st.signalData, st.sampleCount, st.currentTime⟩) ∧
    (∀ (wanted : List (List Char)) (maxS : Nat) (lines : List (List Char))
        (st : DecState) (name : List Char),
      runBody (headerPass wanted lines).1 (headerPass wanted lines).2 maxS
        ⟨[], initData wanted (headerPass wanted lines).1, 0, 0⟩ lines = some st →
      (headerPass wanted lines).1.countP (fun q => q.2 = name) ≤ 1 →
      lenAt name st.signalData ≤ maxS) := by
  refine ⟨fun ids widths maxS st raw rest t h ht =>
      step_marker_some ids widths maxS st raw rest t h ht,
    fun ids widths maxS st raw c rest h hc =>
      step_nonmarker_preserves ids widths maxS st raw c rest h hc, ?_⟩
  intro wanted maxS lines st name hrun huniq
  refine runBody_budget _ _ maxS name huniq lines _ st hrun (Or.inr rfl) ?_
  show lenAt name (initData wanted (headerPass wanted lines).1) ≤ 0 / 10
  rw [lenAt_eq_zero name _ (initData_values _ _)]

/-- Witness for C6 (amended) on a one-marker trace with no tracked
signals and budget 5. -/
theorem decimation_and_sample_budget_witness :
    runBody (headerPass [] [sChars "#1"]).1 (headerPass [] [sChars "#1"]).2 5
        ⟨[], initData [] (headerPass [] [sChars "#1"]).1, 0, 0⟩ [sChars "#1"]
      = some ⟨[], [], 1, 1⟩ ∧
    (headerPass [] [sChars "#1"]).1.countP (fun q => q.2 = sChars "a") ≤ 1 ∧
    lenAt (sChars "a") (DecState.mk [] [] 1 1).signalData ≤ 5 :=
  ⟨by decide, by decide,
   decimation_and_sample_budget.2.2 [] 5 [sChars "#1"] ⟨[], [], 1, 1⟩
     (sChars "a") (by decide) (by decide)⟩

/-! ## Header-resolver lemmas (claim C5) -/

theorem splitAux_nonws (t : List Char) :
    ∀ (rest acc : List Char), (∀ c ∈ t, c.isWhitespace = false) →
    splitAux (t ++ rest) acc = splitAux rest (t.reverse ++ acc) := by
  induction t with
  | nil => intro rest acc _; simp
  | cons c cs ih =>
    intro rest acc h
    have hc : c.isWhitespace = false := h c (List.mem_cons_self _ _)
    have hcs : ∀ x ∈ cs, x.isWhitespace = false :=
      fun x hx => h x (List.mem_cons_of_mem _ hx)
    show splitAux (c :: (cs ++ rest)) acc = splitAux rest ((c :: cs).reverse ++ acc)
    simp only [splitAux, hc]
    rw [if_neg (fun e => Bool.noConfusion e)]
    rw [ih rest (c :: acc) hcs]
    simp

theorem pySplitWs_token (t rest : List Char) (ht : tokenOk t) :
    pySplitWs (t ++ ' ' :: rest) = t :: pySplitWs rest := by
  obtain ⟨hne, hws⟩ := ht
  unfold pySplitWs
  rw [splitAux_nonws t (' ' :: rest) [] hws]
  simp only [List.append_nil, splitAux]
  rw [if_pos (by decide)]
  rw [if_neg (by
    intro h
    rw [List.isEmpty_iff] at h
    exact hne (by simpa using h))]
  simp

theorem pySplitWs_last (t : List Char) (ht : tokenOk t) :
    pySplitWs t = [t] := by
  obtain ⟨hne, hws⟩ := ht
  unfold pySplitWs
  rw [show t = t ++ [] from by simp, splitAux_nonws t [] [] hws]
  simp only [List.append_nil, splitAux]
  rw [if_neg (by
    intro h
    rw [List.isEmpty_iff] at h
    exact hne (by simpa using h))]
  simp

theorem isPrefixOf_append (p rest : List Char) :
    p.isPrefixOf (p ++ rest) = true := by
  induction p with
  | nil => simp [List.isPrefixOf]
  | cons c cs ih => simp [List.isPrefixOf, ih]

theorem pySplitWs_renderDecl (d : VarDecl) (h : wfDecl d) :
    pySplitWs (renderDecl d) = declParts d := by
  obtain ⟨hk, hw, hv, hn, _⟩ := h
  unfold renderDecl declParts
  rw [pySplitWs_token _ _ ⟨by decide, by decide⟩, pySplitWs_token _ _ hk,
    pySplitWs_token _ _ hw, pySplitWs_token _ _ hv, pySplitWs_token _ _ hn,
    pySplitWs_last _ ⟨by decide, by decide⟩]

theorem headerGo_renders (wanted : List (List Char)) :
    ∀ (ds : List VarDecl), (∀ d ∈ ds, wfDecl d) →
    ∀ acc, headerGo wanted acc (ds.map renderDecl ++ [sChars "$enddefinitions $end"])
      = ds.foldl (fun acc d => acceptVar wanted acc (declParts d)) acc := by
  intro ds
  induction ds with
  | nil =>
    intro _ acc
    simp only [List.map_nil, List.nil_append, headerGo, List.foldl_nil]
    rw [if_pos (by decide)]
  | cons d ds ih =>
    intro hwf acc
    have hwfd := hwf d (List.mem_cons_self _ _)
    have hend : ¬ (containsSub (renderDecl d) (sChars "$enddefinitions") = true) := by
      rw [hwfd.2.2.2.2]
      exact fun e => Bool.noConfusion e
    have hpre : (sChars "$var").isPrefixOf (renderDecl d) = true := by
      unfold renderDecl
      exact isPrefixOf_append _ _
    simp only [List.map_cons, List.cons_append, headerGo, List.foldl_cons]
    rw [if_neg hend]
    unfold processHeaderLine
    rw [if_pos hpre, pySplitWs_renderDecl d hwfd]
    exact ih (fun q hq => hwf q (List.mem_cons_of_mem _ hq)) _

theorem headerPass_renders (wanted : List (List Char)) (ds : List VarDecl)
    (hwf : ∀ d ∈ ds, wfDecl d) :
    headerPass wanted (ds.map renderDecl ++ [sChars "$enddefinitions $end"])
      = headerOfDecls wanted ds :=
  headerGo_renders wanted ds hwf ([], [])

theorem declAcceptedB_parts (wanted : List (List Char)) (d : VarDecl)
    (h : declAcceptedB wanted d = true) :
    (d.kind = sChars "wire" ∨ d.kind = sChars "reg" ∨ d.kind = sChars "integer") ∧
    (∃ w, parseDigits d.widthS = some w) ∧
    (∃ b, declBaseOpt d = some b ∧ wanted.contains b = true) := by
  unfold declAcceptedB at h
  rw [Bool.and_eq_true, Bool.and_eq_true] at h
  obtain ⟨⟨h1, h2⟩, h3⟩ := h
  refine ⟨of_decide_eq_true h1, ?_, ?_⟩
  · cases hw : parseDigits d.widthS with
    | none => rw [hw] at h2; cases h2
    | some w => exact ⟨w, rfl⟩
  · cases hb : declBaseOpt d with
    | none => rw [hb] at h3; cases h3
    | some b =>
      rw [hb] at h3
      exact ⟨b, rfl, h3⟩

theorem acceptVar_declParts (wanted : List (List Char))
    (acc : List (List Char × List Char) × List (List Char × Nat)) (d : VarDecl) :
    acceptVar wanted acc (declParts d)
      = if declAcceptedB wanted d then
          (insertA d.vid ((declBaseOpt d).getD []) acc.1,
           insertA d.vid ((parseDigits d.widthS).getD 0) acc.2)
        else acc := by
  rw [show declParts d
      = [sChars "$var", d.kind, d.widthS, d.vid, d.vname, sChars "$end"] from rfl]
  simp only [acceptVar]
  by_cases hty : d.kind = sChars "wire" ∨ d.kind = sChars "reg" ∨
      d.kind = sChars "integer"
  · rw [if_pos hty]
    cases hw : parseDigits d.widthS with
    | none =>
      have hAcc : declAcceptedB wanted d = false := by
        simp [declAcceptedB, hw]
      simp [hAcc]
    | some w =>
      cases hsp : pySplitWs d.vname with
      | nil =>
        have hAcc : declAcceptedB wanted d = false := by
          simp [declAcceptedB, declBaseOpt, hsp]
        simp [hAcc]
      | cons pn pns =>
        have hBase : declBaseOpt d = some (pn.takeWhile (fun c => c ≠ '[')) := by
          unfold declBaseOpt
          rw [hsp]
        have hfun : (fun c : Char => decide (c ≠ '['))
            = (fun c : Char => !decide (c = '[')) := by
          funext c
          simp
        by_cases hbase : wanted.contains (pn.takeWhile (fun c => c ≠ '[')) = true
        · have hmem : pn.takeWhile (fun c => !decide (c = '[')) ∈ wanted := by
            rw [← hfun]
            simpa using hbase
          have hAcc : declAcceptedB wanted d = true := by
            simp [declAcceptedB, hBase, hty, hw, hmem]
          simp [hAcc, hBase, hw, hmem]
        · have hmem : ¬ (pn.takeWhile (fun c => !decide (c = '[')) ∈ wanted) := by
            rw [← hfun]
            simpa using hbase
          have hAcc : declAcceptedB wanted d = false := by
            simp [declAcceptedB, hBase, hw, hmem]
          simp [hAcc, hmem]
  · have hAcc : declAcceptedB wanted d = false := by
      simp [declAcceptedB, hty]
    simp [hAcc, hty]

theorem headerFold_lookup (wanted : List (List Char)) :
    ∀ (ds : List VarDecl)
      (acc : List (List Char × List Char) × List (List Char × Nat)) (i : List Char),
    (lookupA i (ds.foldl (fun acc d => acceptVar wanted acc (declParts d)) acc).1
      = (match ds.reverse.find?
            (fun d => declAcceptedB wanted d && decide (d.vid = i)) with
         | some d => declBaseOpt d
         | none => lookupA i acc.1)) ∧
    (lookupA i (ds.foldl (fun acc d => acceptVar wanted acc (declParts d)) acc).2
      = (match ds.reverse.find?
            (fun d => declAcceptedB wanted d && decide (d.vid = i)) with
         | some d => parseDigits d.widthS
         | none => lookupA i acc.2)) := by
  intro ds
  induction ds using List.reverseRecOn with
  | nil => intro acc i; exact ⟨rfl, rfl⟩
  | append_singleton ds d ih =>
    intro acc i
    rw [List.foldl_append, List.foldl_cons, List.foldl_nil, List.reverse_append]
    simp only [List.reverse_cons, List.reverse_nil, List.nil_append,
      List.singleton_append]
    rw [acceptVar_declParts]
    by_cases hd : (declAcceptedB wanted d && decide (d.vid = i)) = true
    · have hfind : (d :: ds.reverse).find?
            (fun q => declAcceptedB wanted q && decide (q.vid = i)) = some d :=
        List.find?_cons_of_pos _ hd
      rw [hfind]
      rw [Bool.and_eq_true] at hd
      have hacc := hd.1
      have hvid : d.vid = i := of_decide_eq_true hd.2
      subst hvid
      rw [if_pos hacc]
      obtain ⟨_, ⟨w, hw⟩, ⟨b, hb, _⟩⟩ := declAcceptedB_parts wanted d hacc
      constructor
      · rw [lookupA_insertA_self]
        simp [hb]
      · rw [lookupA_insertA_self]
        simp [hw]
    · have hfind : (d :: ds.reverse).find?
            (fun q => declAcceptedB wanted q && decide (q.vid = i))
          = ds.reverse.find? (fun q => declAcceptedB wanted q && decide (q.vid = i)) :=
        List.find?_cons_of_neg _ (by simpa using hd)
      rw [hfind]
      by_cases hacc : declAcceptedB wanted d = true
      · have hvid : ¬ (d.vid = i) := by
          intro e
          apply hd
          rw [Bool.and_eq_true]
          exact ⟨hacc, decide_eq_true e⟩
        rw [if_pos hacc]
        constructor
        · rw [lookupA_insertA_ne _ _ _ _ (fun e => hvid e.symm)]
          exact (ih acc i).1
        · rw [lookupA_insertA_ne _ _ _ _ (fun e => hvid e.symm)]
          exact (ih acc i).2
      · rw [if_neg hacc]
        exact ih acc i

/-! ## Claim C5 (amended) -/

/-- C5 (amended): for every well-formed header, the resolver's table maps
each identifier token `i` to the base name and declared width of the last
accepted wanted declaration using identifier `i`, and has no entry for `i`
otherwise.  Hence a wanted name appears once per identifier whose last
declaration carries it: when two declarations share base name and
identifier the last one wins, but two declarations sharing a base name
under distinct identifiers both remain in the table (see the
counterexample). -/
theorem header_resolver_last_wins_per_identifier (wanted : List (List Char))
    (ds : List VarDecl) (hwf : ∀ d ∈ ds, wfDecl d) (i : List Char) :
    (lookupA i (headerPass wanted
        (ds.map renderDecl ++ [sChars "$enddefinitions $end"])).1
      = (match ds.reverse.find?
            (fun d => declAcceptedB wanted d && decide (d.vid = i)) with
         | some d => declBaseOpt d
         | none => none)) ∧
    (lookupA i (headerPass wanted
        (ds.map renderDecl ++ [sChars "$enddefinitions $end"])).2
      = (match ds.reverse.find?
            (fun d => declAcceptedB wanted d && decide (d.vid = i)) with
         | some d => parseDigits d.widthS
         | none => none)) := by
  rw [headerPass_renders wanted ds hwf]
  exact headerFold_lookup wanted ds ([], []) i

/-- Witness for C5 (amended) on a header declaring base name `a` under the
two identifiers `!` and `@`. -/
theorem header_resolver_last_wins_witness :
    (∀ d ∈ ([⟨sChars "wire", sChars "4", sChars "!", sChars "a"⟩,
             ⟨sChars "wire", sChars "8", sChars "@", sChars "a"⟩] : List VarDecl),
      wfDecl d) ∧
    ((lookupA (sChars "@") (headerPass [sChars "a"]
        (([⟨sChars "wire", sChars "4", sChars "!", sChars "a"⟩,
           ⟨sChars "wire", sChars "8", sChars "@", sChars "a"⟩] :
            List VarDecl).map renderDecl ++ [sChars "$enddefinitions $end"])).1
      = (match ([⟨sChars "wire", sChars "4", sChars "!", sChars "a"⟩,
                 ⟨sChars "wire", sChars "8", sChars "@", sChars "a"⟩] :
                  List VarDecl).reverse.find?
            (fun d => declAcceptedB [sChars "a"] d &&
              decide (d.vid = sChars "@")) with
         | some d => declBaseOpt d
         | none => none)) ∧
    (lookupA (sChars "@") (headerPass [sChars "a"]
        (([⟨sChars "wire", sChars "4", sChars "!", sChars "a"⟩,
           ⟨sChars "wire", sChars "8", sChars "@", sChars "a"⟩] :
            List VarDecl).map renderDecl ++ [sChars "$enddefinitions $end"])).2
      = (match ([⟨sChars "wire", sChars "4", sChars "!", sChars "a"⟩,
                 ⟨sChars "wire", sChars "8", sChars "@", sChars "a"⟩] :
                  List VarDecl).reverse.find?
            (fun d => declAcceptedB [sChars "a"] d &&
              decide (d.vid = sChars "@")) with
         | some d => parseDigits d.widthS
         | none => none))) :=
  ⟨by decide,
   header_resolver_last_wins_per_identifier [sChars "a"]
     [⟨sChars "wire", sChars "4", sChars "!", sChars "a"⟩,
      ⟨sChars "wire", sChars "8", sChars "@", sChars "a"⟩]
     (by decide) (sChars "@")⟩
